import Mathlib

/-!
Verification of the diatom front-end AST module (`src/frontend/parser/ast.rs`).

The data model (`Stat`, `Stat_`, `Expr`, `Expr_`, `Const`, the operator
enumerations) and the textual rendering (the `Debug` implementations of
`Stat`, `Expr` and `Const`, together with the behaviour of Rust's
`debug_tuple` / `debug_list` / `debug_set` / `debug_map` formatting
builders and the derived `Debug` of the operator enumerations) are
embedded shallowly below.  Machine integers carry no arithmetic in this
module, so `i64` is embedded as `Int`; `f64` values are opaque to every
claim and are embedded by their rendered decimal text.
-/

/-- Modelled from the spec: `Loc` lives in the diagnostics module
(`crate::diagnostic::Loc`), which is not part of the staged sources; the
spec treats it as an opaque source span supplied by the producer.  A span
is embedded as a pair of offsets. -/
structure Loc where
  lo : Nat
  hi : Nat
deriving DecidableEq, Repr

/-- Modelled from the spec: the payload of `Const::Float(f64)`.  Floating
point does not translate to the shallow embedding and no claim depends on
float values, so an `f64` is carried opaquely as the decimal text its
`Display` implementation would print. -/
structure F64 where
  repr : String
deriving DecidableEq, Repr

/-- `OpInfix` (ast.rs lines 77–98): the infix operator enumeration,
exactly the 19 members of the source, in source order. -/
inductive OpInfix where
  | Assign | Range | Or | And | Eq | Ne | Le | Lt | Ge | Gt
  | Plus | Minus | Mul | Div | DivFloor | Mod | Exp | Comma | Member
deriving DecidableEq, Repr, Fintype

/-- `OpPrefix` (ast.rs lines 100–104). -/
inductive OpPrefix where
  | Not | Neg
deriving DecidableEq, Repr, Fintype

/-- `OpPostfix` (ast.rs lines 106–110). -/
inductive OpPostfix where
  | Index | Call
deriving DecidableEq, Repr, Fintype

mutual

/-- `Stat_` (ast.rs lines 19–30): the statement payload. -/
inductive Stat_ where
  | Expr (e : Expr)
  | Continue
  | Break
  | Return (e : Option Expr)
  | Class (name : String) (fields : List (String × Loc)) (methods : List Expr)
  | Loop (cond : Option Expr) (body : List Stat)
  | For (vars : Expr) (iter : Expr) (body : List Stat)
  | Error

/-- `Stat` (ast.rs lines 32–35): a location paired with a statement payload. -/
inductive Stat where
  | mk (loc : Loc) (val : Stat_)

/-- `Expr_` (ast.rs lines 112–131): the expression payload. -/
inductive Expr_ where
  | Block (b : List Stat)
  | If (v : List Expr)
  | Prefix (op : OpPrefix) (e : Expr)
  | Call (f : Expr) (args : List Expr)
  | Index (e : Expr) (i : Expr)
  | Infix (op : OpInfix) (l : Expr) (r : Expr)
  | Def (name : Option String) (decl : List String) (body : List Stat)
        (binds : List (String × Expr))
  | Id (s : String)
  | Parentheses (e : Expr)
  | Const (c : Const)
  | Error

/-- `Expr` (ast.rs lines 133–136): a location paired with an expression payload. -/
inductive Expr where
  | mk (loc : Loc) (val : Expr_)

/-- `Const` (ast.rs lines 168–178): the constant-literal taxonomy. -/
inductive Const where
  | Int (i : Int)
  | Float (x : F64)
  | Str (s : String)
  | Bool (b : Bool)
  | List (l : List Expr)
  | Set (l : List Expr)
  | Dict (keys : List Expr) (vals : List Expr)
  | Nil

end

/-- Field accessor for `Stat.loc` (the struct field `loc`). -/
def Stat.loc : Stat → Loc
  | .mk l _ => l

/-- Field accessor for `Stat.val` (the struct field `val`). -/
def Stat.val : Stat → Stat_
  | .mk _ v => v

/-- `Stat::new` (ast.rs lines 71–75): takes a payload and a location and
returns the node `{ loc, val }`, with no further checks. -/
def Stat.new (val : Stat_) (loc : Loc) : Stat :=
  .mk loc val

/-- Field accessor for `Expr.loc`. -/
def Expr.loc : Expr → Loc
  | .mk l _ => l

/-- Field accessor for `Expr.val`. -/
def Expr.val : Expr → Expr_
  | .mk _ v => v

/-- `Ast` (ast.rs lines 195–198): the tree root, an ordered sequence of
top-level statements. -/
structure Ast where
  statements : List Stat

/-!
The textual rendering.  Rust's `Formatter` builders behave as follows in
non-alternate mode, and are embedded accordingly:
  * `debug_tuple(name)` writes `name`, then — when at least one field was
    added — `(f1, f2, …)`; with an empty name and exactly one field it
    writes `(f1,)` (the trailing comma of a 1-tuple);
  * `debug_list` writes `[e1, e2, …]`;
  * `debug_set` writes `{e1, e2, …}`;
  * `debug_map` writes `{k1: v1, k2: v2, …}`;
  * `Debug` of `String`/`&str` writes the text quoted, with
    `escape_debug`-escaped characters; `Debug` of `Option` writes `None`
    or `Some(x)`; `Debug` of a pair writes `(a, b)`.
-/

/-- `char::escape_debug` as used by `Debug` for strings (double quotes
escaped, single quotes not).  Control characters are written `\u{hex}`;
the printability of characters above ASCII is approximated as "printable",
exact on the ASCII range. -/
def escapeDebugChar (c : Char) : String :=
  if c.toNat = 0 then "\\0"
  else if c = '\t' then "\\t"
  else if c = '\r' then "\\r"
  else if c = '\n' then "\\n"
  else if c = '\\' then "\\\\"
  else if c = '"' then "\\\""
  else if c.toNat < 32 ∨ c.toNat = 127 then
    "\\u\x7b" ++ String.mk (Nat.toDigits 16 c.toNat) ++ "\x7d"
  else String.singleton c

/-- `Debug` for a Rust string: quoted, characters escaped. -/
def debugStr (s : String) : String :=
  "\"" ++ String.join (s.data.map escapeDebugChar) ++ "\""

/-- The entry list of a `debug_list`/`debug_tuple`: first entry bare, each
further entry preceded by `", "`. -/
def joinComma : List String → String
  | [] => ""
  | [x] => x
  | x :: y :: rest => x ++ ", " ++ joinComma (y :: rest)

/-- `Debug` of a `Vec<String>` (or `Vec<&String>`): a `debug_list` of
quoted strings. -/
def debugStrList (xs : List String) : String :=
  "[" ++ joinComma (xs.map debugStr) ++ "]"

/-- Derived `Debug` of `OpInfix`: the variant's name. -/
def OpInfix.debug : OpInfix → String
  | .Assign => "Assign"
  | .Range => "Range"
  | .Or => "Or"
  | .And => "And"
  | .Eq => "Eq"
  | .Ne => "Ne"
  | .Le => "Le"
  | .Lt => "Lt"
  | .Ge => "Ge"
  | .Gt => "Gt"
  | .Plus => "Plus"
  | .Minus => "Minus"
  | .Mul => "Mul"
  | .Div => "Div"
  | .DivFloor => "DivFloor"
  | .Mod => "Mod"
  | .Exp => "Exp"
  | .Comma => "Comma"
  | .Member => "Member"

/-- Derived `Debug` of `OpPrefix`: the variant's name. -/
def OpPrefix.debug : OpPrefix → String
  | .Not => "Not"
  | .Neg => "Neg"

/-- Derived `Debug` of `OpPostfix`: the variant's name. -/
def OpPostfix.debug : OpPostfix → String
  | .Index => "Index"
  | .Call => "Call"

mutual

/-- `impl Debug for Stat` (ast.rs lines 37–69): dispatches on `self.val`;
the location is never consulted. -/
def renderStat : Stat → String
  | .mk _ v => renderStat_ v
termination_by s => sizeOf s
decreasing_by all_goals (simp_wf <;> omega)

/-- The match arms of `impl Debug for Stat` over the payload. -/
def renderStat_ : Stat_ → String
  | .Expr e => "(" ++ renderExpr e ++ ",)"
  | .Continue => "continue"
  | .Break => "break"
  | .Return none => "return"
  | .Return (some e) => "return(" ++ renderExpr e ++ ")"
  | .Class name fields methods =>
      "class(" ++ debugStr name ++ ", "
        ++ debugStrList (fields.map Prod.fst) ++ ", "
        ++ "[" ++ renderExprsJoined methods ++ "]" ++ ")"
  | .Loop cond body =>
      "loop(" ++ renderOptExpr cond ++ ", "
        ++ "[" ++ renderStatsJoined body ++ "]" ++ ")"
  | .For vars iter body =>
      "for(" ++ renderExpr vars ++ ", \"in\", " ++ renderExpr iter
        ++ ", \"do\", " ++ "[" ++ renderStatsJoined body ++ "]" ++ ")"
  | .Error => "error"
termination_by v => sizeOf v
decreasing_by all_goals (simp_wf <;> omega)

/-- `Debug` of `Option<Expr>` (the `loop` break condition). -/
def renderOptExpr : Option Expr → String
  | none => "None"
  | some e => "Some(" ++ renderExpr e ++ ")"
termination_by o => sizeOf o
decreasing_by all_goals (simp_wf <;> omega)

/-- `impl Debug for Expr` (ast.rs lines 138–166): dispatches on `self.val`;
the location is never consulted. -/
def renderExpr : Expr → String
  | .mk _ v => renderExpr_ v
termination_by e => sizeOf e
decreasing_by all_goals (simp_wf <;> omega)

/-- The match arms of `impl Debug for Expr` over the payload. -/
def renderExpr_ : Expr_ → String
  | .Block b => "[" ++ renderStatsJoined b ++ "]"
  | .If v => "(\"if\", " ++ "[" ++ renderExprsJoined v ++ "]" ++ ")"
  | .Prefix op e => "(" ++ op.debug ++ ", " ++ renderExpr e ++ ")"
  | .Call f args =>
      "Call(" ++ renderExpr f ++ ", " ++ "[" ++ renderExprsJoined args ++ "]" ++ ")"
  | .Index e i => "Call(" ++ renderExpr e ++ ", " ++ renderExpr i ++ ")"
  | .Infix op l r =>
      "(" ++ renderExpr l ++ ", " ++ op.debug ++ ", " ++ renderExpr r ++ ")"
  | .Def none decl body binds =>
      "def(" ++ debugStrList decl ++ ", " ++ "[" ++ renderStatsJoined body ++ "]"
        ++ ", " ++ "[" ++ renderBindsJoined binds ++ "]" ++ ")"
  | .Def (some n) decl body binds =>
      "def(" ++ debugStr n ++ ", " ++ debugStrList decl ++ ", "
        ++ "[" ++ renderStatsJoined body ++ "]" ++ ", "
        ++ "[" ++ renderBindsJoined binds ++ "]" ++ ")"
  | .Id s => debugStr s
  | .Parentheses e => "(\"(\", " ++ renderExpr e ++ ", \")\")"
  | .Const c => renderConst c
  | .Error => "Error"
termination_by v => sizeOf v
decreasing_by all_goals (simp_wf <;> omega)

/-- `impl Debug for Const` (ast.rs lines 180–193). -/
def renderConst : Const → String
  | .Int i => toString i
  | .Float x => x.repr
  | .Str s => s
  | .Bool b => cond b "true" "false"
  | .List l => "[" ++ renderExprsJoined l ++ "]"
  | .Set l => "\x7b" ++ renderExprsJoined l ++ "\x7d"
  | .Dict ks vs => "\x7b" ++ renderMapJoined ks vs ++ "\x7d"
  | .Nil => "nil"
termination_by c => sizeOf c
decreasing_by all_goals (simp_wf <;> omega)

/-- The comma-joined entries of a statement list. -/
def renderStatsJoined : List Stat → String
  | [] => ""
  | [s] => renderStat s
  | s :: s' :: rest => renderStat s ++ ", " ++ renderStatsJoined (s' :: rest)
termination_by l => sizeOf l
decreasing_by all_goals (simp_wf <;> omega)

/-- The comma-joined entries of an expression list. -/
def renderExprsJoined : List Expr → String
  | [] => ""
  | [e] => renderExpr e
  | e :: e' :: rest => renderExpr e ++ ", " ++ renderExprsJoined (e' :: rest)
termination_by l => sizeOf l
decreasing_by all_goals (simp_wf <;> omega)

/-- The comma-joined entries of a capture list (a pair renders as
`("name", expr)`). -/
def renderBindsJoined : List (String × Expr) → String
  | [] => ""
  | [(s, e)] => "(" ++ debugStr s ++ ", " ++ renderExpr e ++ ")"
  | (s, e) :: p :: rest =>
      "(" ++ debugStr s ++ ", " ++ renderExpr e ++ ")" ++ ", "
        ++ renderBindsJoined (p :: rest)
termination_by l => sizeOf l
decreasing_by all_goals (simp_wf <;> omega)

/-- `debug_map` over `keys.iter().zip(vals.iter())`: the zip is fused into
a two-list recursion (an entry is emitted while both lists are nonempty,
so the surplus of the longer list is dropped, exactly as `zip` does). -/
def renderMapJoined : List Expr → List Expr → String
  | [], _ => ""
  | _ :: _, [] => ""
  | [k], v :: _ => renderExpr k ++ ": " ++ renderExpr v
  | k :: _ :: _, [v] => renderExpr k ++ ": " ++ renderExpr v
  | k :: k' :: ks, v :: v' :: vs =>
      renderExpr k ++ ": " ++ renderExpr v ++ ", "
        ++ renderMapJoined (k' :: ks) (v' :: vs)
termination_by ks vs => sizeOf ks + sizeOf vs
decreasing_by all_goals (simp_wf <;> omega)

end

/-!
Traversal predicates used to state the error-resilience claims: whether a
tree holds an `Error` node anywhere, and the dict-balance invariant (§8 of
the spec) that every `Dict` literal carries equally long key and value
sequences.
-/

mutual

/-- Whether a statement holds an `Error` payload anywhere. -/
def hasErrStat : Stat → Bool
  | .mk _ v => hasErrStat_ v
termination_by s => sizeOf s
decreasing_by all_goals (simp_wf <;> omega)

/-- Whether a statement payload holds an `Error` anywhere. -/
def hasErrStat_ : Stat_ → Bool
  | .Expr e => hasErrExpr e
  | .Continue => false
  | .Break => false
  | .Return none => false
  | .Return (some e) => hasErrExpr e
  | .Class _ _ methods => hasErrExprs methods
  | .Loop cond body => hasErrOpt cond || hasErrStats body
  | .For vars iter body => hasErrExpr vars || hasErrExpr iter || hasErrStats body
  | .Error => true
termination_by v => sizeOf v
decreasing_by all_goals (simp_wf <;> omega)

/-- Whether an optional expression holds an `Error` anywhere. -/
def hasErrOpt : Option Expr → Bool
  | none => false
  | some e => hasErrExpr e
termination_by o => sizeOf o
decreasing_by all_goals (simp_wf <;> omega)

/-- Whether an expression holds an `Error` payload anywhere. -/
def hasErrExpr : Expr → Bool
  | .mk _ v => hasErrExpr_ v
termination_by e => sizeOf e
decreasing_by all_goals (simp_wf <;> omega)

/-- Whether an expression payload holds an `Error` anywhere. -/
def hasErrExpr_ : Expr_ → Bool
  | .Block b => hasErrStats b
  | .If v => hasErrExprs v
  | .Prefix _ e => hasErrExpr e
  | .Call f args => hasErrExpr f || hasErrExprs args
  | .Index e i => hasErrExpr e || hasErrExpr i
  | .Infix _ l r => hasErrExpr l || hasErrExpr r
  | .Def _ _ body binds => hasErrStats body || hasErrBinds binds
  | .Id _ => false
  | .Parentheses e => hasErrExpr e
  | .Const c => hasErrConst c
  | .Error => true
termination_by v => sizeOf v
decreasing_by all_goals (simp_wf <;> omega)

/-- Whether a constant literal holds an `Error` anywhere. -/
def hasErrConst : Const → Bool
  | .Int _ => false
  | .Float _ => false
  | .Str _ => false
  | .Bool _ => false
  | .List l => hasErrExprs l
  | .Set l => hasErrExprs l
  | .Dict ks vs => hasErrExprs ks || hasErrExprs vs
  | .Nil => false
termination_by c => sizeOf c
decreasing_by all_goals (simp_wf <;> omega)

/-- Whether any statement of a list holds an `Error` anywhere. -/
def hasErrStats : List Stat → Bool
  | [] => false
  | s :: rest => hasErrStat s || hasErrStats rest
termination_by l => sizeOf l
decreasing_by all_goals (simp_wf <;> omega)

/-- Whether any expression of a list holds an `Error` anywhere. -/
def hasErrExprs : List Expr → Bool
  | [] => false
  | e :: rest => hasErrExpr e || hasErrExprs rest
termination_by l => sizeOf l
decreasing_by all_goals (simp_wf <;> omega)

/-- Whether any capture initializer of a list holds an `Error` anywhere. -/
def hasErrBinds : List (String × Expr) → Bool
  | [] => false
  | (_, e) :: rest => hasErrExpr e || hasErrBinds rest
termination_by l => sizeOf l
decreasing_by all_goals (simp_wf <;> omega)

end

mutual

/-- The dict-balance invariant over a statement: every `Dict` literal
anywhere inside carries equally long key and value sequences. -/
def wfStat : Stat → Bool
  | .mk _ v => wfStat_ v
termination_by s => sizeOf s
decreasing_by all_goals (simp_wf <;> omega)

/-- The dict-balance invariant over a statement payload. -/
def wfStat_ : Stat_ → Bool
  | .Expr e => wfExpr e
  | .Continue => true
  | .Break => true
  | .Return none => true
  | .Return (some e) => wfExpr e
  | .Class _ _ methods => wfExprs methods
  | .Loop cond body => wfOpt cond && wfStats body
  | .For vars iter body => wfExpr vars && wfExpr iter && wfStats body
  | .Error => true
termination_by v => sizeOf v
decreasing_by all_goals (simp_wf <;> omega)

/-- The dict-balance invariant over an optional expression. -/
def wfOpt : Option Expr → Bool
  | none => true
  | some e => wfExpr e
termination_by o => sizeOf o
decreasing_by all_goals (simp_wf <;> omega)

/-- The dict-balance invariant over an expression. -/
def wfExpr : Expr → Bool
  | .mk _ v => wfExpr_ v
termination_by e => sizeOf e
decreasing_by all_goals (simp_wf <;> omega)

/-- The dict-balance invariant over an expression payload. -/
def wfExpr_ : Expr_ → Bool
  | .Block b => wfStats b
  | .If v => wfExprs v
  | .Prefix _ e => wfExpr e
  | .Call f args => wfExpr f && wfExprs args
  | .Index e i => wfExpr e && wfExpr i
  | .Infix _ l r => wfExpr l && wfExpr r
  | .Def _ _ body binds => wfStats body && wfBinds binds
  | .Id _ => true
  | .Parentheses e => wfExpr e
  | .Const c => wfConst c
  | .Error => true
termination_by v => sizeOf v
decreasing_by all_goals (simp_wf <;> omega)

/-- The dict-balance invariant over a constant literal. -/
def wfConst : Const → Bool
  | .Int _ => true
  | .Float _ => true
  | .Str _ => true
  | .Bool _ => true
  | .List l => wfExprs l
  | .Set l => wfExprs l
  | .Dict ks vs => ks.length == vs.length && wfExprs ks && wfExprs vs
  | .Nil => true
termination_by c => sizeOf c
decreasing_by all_goals (simp_wf <;> omega)

/-- The dict-balance invariant over a statement list. -/
def wfStats : List Stat → Bool
  | [] => true
  | s :: rest => wfStat s && wfStats rest
termination_by l => sizeOf l
decreasing_by all_goals (simp_wf <;> omega)

/-- The dict-balance invariant over an expression list. -/
def wfExprs : List Expr → Bool
  | [] => true
  | e :: rest => wfExpr e && wfExprs rest
termination_by l => sizeOf l
decreasing_by all_goals (simp_wf <;> omega)

/-- The dict-balance invariant over a capture list. -/
def wfBinds : List (String × Expr) → Bool
  | [] => true
  | (_, e) :: rest => wfExpr e && wfBinds rest
termination_by l => sizeOf l
decreasing_by all_goals (simp_wf <;> omega)

end

/-- `a` occurs contiguously inside `b`. -/
def strInfix (a b : String) : Prop :=
  a.data <:+: b.data

/-- An occurrence inside the right part of an append survives the append. -/
theorem strInfix_appendR (x a b : String) (h : strInfix x b) :
    strInfix x (a ++ b) := by
  unfold strInfix at *
  rw [String.data_append]
  exact h.trans (by simpa using List.infix_append a.data b.data [])

/-- An occurrence inside the left part of an append survives the append. -/
theorem strInfix_appendL (x a b : String) (h : strInfix x a) :
    strInfix x (a ++ b) := by
  unfold strInfix at *
  rw [String.data_append]
  exact h.trans (by simpa using List.infix_append [] a.data b.data)

/-- Every string occurs inside itself. -/
theorem strInfix_refl (a : String) : strInfix a a :=
  List.infix_refl a.data

/-- The textual mark an `Error` node leaves in a rendering: statement
errors render `error`, expression errors render `Error`. -/
def errMark (s : String) : Prop :=
  strInfix "Error" s ∨ strInfix "error" s

/-- The mark survives an append on the left. -/
theorem errMark_appendR (a b : String) (h : errMark b) : errMark (a ++ b) :=
  h.elim (fun h' => .inl (strInfix_appendR _ a b h'))
    (fun h' => .inr (strInfix_appendR _ a b h'))

/-- The mark survives an append on the right. -/
theorem errMark_appendL (a b : String) (h : errMark a) : errMark (a ++ b) :=
  h.elim (fun h' => .inl (strInfix_appendL _ a b h'))
    (fun h' => .inr (strInfix_appendL _ a b h'))

/-- Peeling a prefix off a right-associated append chain. -/
theorem errMark_tail (pre : String) {mid : String} (h : errMark mid) :
    errMark (pre ++ mid) :=
  errMark_appendR pre mid h

/-- Keeping the head of a right-associated append chain. -/
theorem errMark_head {mid : String} (post : String) (h : errMark mid) :
    errMark (mid ++ post) :=
  errMark_appendL mid post h

/-- The expression error placeholder marks its own rendering. -/
theorem errMark_Error : errMark "Error" :=
  .inl (strInfix_refl "Error")

/-- The statement error placeholder marks its own rendering. -/
theorem errMark_error : errMark "error" :=
  .inr (strInfix_refl "error")

mutual

/-- A well-formed statement holding an `Error` node anywhere renders with
the error mark visible: the renderer reaches the node. -/
theorem errMark_renderStat (t : Stat) (hw : wfStat t = true)
    (he : hasErrStat t = true) : errMark (renderStat t) := by
  match t with
  | .mk l v =>
    simp only [wfStat] at hw
    simp only [hasErrStat] at he
    simp only [renderStat]
    exact errMark_renderStat_ v hw he
termination_by sizeOf t
decreasing_by all_goals (simp_wf <;> omega)

/-- A well-formed statement payload holding an `Error` node anywhere
renders with the error mark visible. -/
theorem errMark_renderStat_ (v : Stat_) (hw : wfStat_ v = true)
    (he : hasErrStat_ v = true) : errMark (renderStat_ v) := by
  match v with
  | .Expr e =>
    simp only [wfStat_] at hw
    simp only [hasErrStat_] at he
    simp only [renderStat_, String.append_assoc]
    exact errMark_tail _ (errMark_head _ (errMark_renderExpr e hw he))
  | .Continue => simp [hasErrStat_] at he
  | .Break => simp [hasErrStat_] at he
  | .Return none => simp [hasErrStat_] at he
  | .Return (some e) =>
    simp only [wfStat_] at hw
    simp only [hasErrStat_] at he
    simp only [renderStat_, String.append_assoc]
    exact errMark_tail _ (errMark_head _ (errMark_renderExpr e hw he))
  | .Class n fields methods =>
    simp only [wfStat_] at hw
    simp only [hasErrStat_] at he
    simp only [renderStat_, String.append_assoc]
    exact errMark_tail _ (errMark_tail _ (errMark_tail _ (errMark_tail _
      (errMark_tail _ (errMark_tail _ (errMark_head _
        (errMark_renderExprsJoined methods hw he)))))))
  | .Loop cond body =>
    simp only [wfStat_, Bool.and_eq_true] at hw
    simp only [hasErrStat_, Bool.or_eq_true] at he
    simp only [renderStat_, String.append_assoc]
    rcases he with he | he
    · exact errMark_tail _ (errMark_head _ (errMark_renderOpt cond hw.1 he))
    · exact errMark_tail _ (errMark_tail _ (errMark_tail _ (errMark_tail _
        (errMark_head _ (errMark_renderStatsJoined body hw.2 he)))))
  | .For vars iter body =>
    simp only [wfStat_, Bool.and_eq_true] at hw
    simp only [hasErrStat_, Bool.or_eq_true] at he
    simp only [renderStat_, String.append_assoc]
    rcases he with (he | he) | he
    · exact errMark_tail _ (errMark_head _ (errMark_renderExpr vars hw.1.1 he))
    · exact errMark_tail _ (errMark_tail _ (errMark_tail _ (errMark_head _
        (errMark_renderExpr iter hw.1.2 he))))
    · exact errMark_tail _ (errMark_tail _ (errMark_tail _ (errMark_tail _
        (errMark_tail _ (errMark_tail _ (errMark_head _
          (errMark_renderStatsJoined body hw.2 he)))))))
  | .Error =>
    simp only [renderStat_]
    exact errMark_error
termination_by sizeOf v
decreasing_by all_goals (simp_wf <;> omega)

/-- A well-formed optional expression holding an `Error` node anywhere
renders with the error mark visible. -/
theorem errMark_renderOpt (o : Option Expr) (hw : wfOpt o = true)
    (he : hasErrOpt o = true) : errMark (renderOptExpr o) := by
  match o with
  | none => simp [hasErrOpt] at he
  | some e =>
    simp only [wfOpt] at hw
    simp only [hasErrOpt] at he
    simp only [renderOptExpr, String.append_assoc]
    exact errMark_tail _ (errMark_head _ (errMark_renderExpr e hw he))
termination_by sizeOf o
decreasing_by all_goals (simp_wf <;> omega)

/-- A well-formed expression holding an `Error` node anywhere renders
with the error mark visible. -/
theorem errMark_renderExpr (e : Expr) (hw : wfExpr e = true)
    (he : hasErrExpr e = true) : errMark (renderExpr e) := by
  match e with
  | .mk l v =>
    simp only [wfExpr] at hw
    simp only [hasErrExpr] at he
    simp only [renderExpr]
    exact errMark_renderExpr_ v hw he
termination_by sizeOf e
decreasing_by all_goals (simp_wf <;> omega)

/-- A well-formed expression payload holding an `Error` node anywhere
renders with the error mark visible. -/
theorem errMark_renderExpr_ (v : Expr_) (hw : wfExpr_ v = true)
    (he : hasErrExpr_ v = true) : errMark (renderExpr_ v) := by
  match v with
  | .Block b =>
    simp only [wfExpr_] at hw
    simp only [hasErrExpr_] at he
    simp only [renderExpr_, String.append_assoc]
    exact errMark_tail _ (errMark_head _ (errMark_renderStatsJoined b hw he))
  | .If l =>
    simp only [wfExpr_] at hw
    simp only [hasErrExpr_] at he
    simp only [renderExpr_, String.append_assoc]
    exact errMark_tail _ (errMark_tail _ (errMark_head _
      (errMark_renderExprsJoined l hw he)))
  | .Prefix op e =>
    simp only [wfExpr_] at hw
    simp only [hasErrExpr_] at he
    simp only [renderExpr_, String.append_assoc]
    exact errMark_tail _ (errMark_tail _ (errMark_tail _ (errMark_head _
      (errMark_renderExpr e hw he))))
  | .Call f args =>
    simp only [wfExpr_, Bool.and_eq_true] at hw
    simp only [hasErrExpr_, Bool.or_eq_true] at he
    simp only [renderExpr_, String.append_assoc]
    rcases he with he | he
    · exact errMark_tail _ (errMark_head _ (errMark_renderExpr f hw.1 he))
    · exact errMark_tail _ (errMark_tail _ (errMark_tail _ (errMark_tail _
        (errMark_head _ (errMark_renderExprsJoined args hw.2 he)))))
  | .Index e i =>
    simp only [wfExpr_, Bool.and_eq_true] at hw
    simp only [hasErrExpr_, Bool.or_eq_true] at he
    simp only [renderExpr_, String.append_assoc]
    rcases he with he | he
    · exact errMark_tail _ (errMark_head _ (errMark_renderExpr e hw.1 he))
    · exact errMark_tail _ (errMark_tail _ (errMark_tail _ (errMark_head _
        (errMark_renderExpr i hw.2 he))))
  | .Infix op a b =>
    simp only [wfExpr_, Bool.and_eq_true] at hw
    simp only [hasErrExpr_, Bool.or_eq_true] at he
    simp only [renderExpr_, String.append_assoc]
    rcases he with he | he
    · exact errMark_tail _ (errMark_head _ (errMark_renderExpr a hw.1 he))
    · exact errMark_tail _ (errMark_tail _ (errMark_tail _ (errMark_tail _
        (errMark_tail _ (errMark_head _ (errMark_renderExpr b hw.2 he))))))
  | .Def name decl body binds =>
    simp only [wfExpr_, Bool.and_eq_true] at hw
    simp only [hasErrExpr_, Bool.or_eq_true] at he
    match name with
    | none =>
      simp only [renderExpr_, String.append_assoc]
      rcases he with he | he
      · exact errMark_tail _ (errMark_tail _ (errMark_tail _ (errMark_tail _
          (errMark_head _ (errMark_renderStatsJoined body hw.1 he)))))
      · exact errMark_tail _ (errMark_tail _ (errMark_tail _ (errMark_tail _
          (errMark_tail _ (errMark_tail _ (errMark_tail _ (errMark_tail _
            (errMark_head _ (errMark_renderBindsJoined binds hw.2 he)))))))))
    | some n =>
      simp only [renderExpr_, String.append_assoc]
      rcases he with he | he
      · exact errMark_tail _ (errMark_tail _ (errMark_tail _ (errMark_tail _
          (errMark_tail _ (errMark_tail _ (errMark_head _
            (errMark_renderStatsJoined body hw.1 he)))))))
      · exact errMark_tail _ (errMark_tail _ (errMark_tail _ (errMark_tail _
          (errMark_tail _ (errMark_tail _ (errMark_tail _ (errMark_tail _
            (errMark_tail _ (errMark_tail _ (errMark_head _
              (errMark_renderBindsJoined binds hw.2 he)))))))))))
  | .Id s => simp [hasErrExpr_] at he
  | .Parentheses e =>
    simp only [wfExpr_] at hw
    simp only [hasErrExpr_] at he
    simp only [renderExpr_, String.append_assoc]
    exact errMark_tail _ (errMark_head _ (errMark_renderExpr e hw he))
  | .Const c =>
    simp only [wfExpr_] at hw
    simp only [hasErrExpr_] at he
    simp only [renderExpr_]
    exact errMark_renderConst c hw he
  | .Error =>
    simp only [renderExpr_]
    exact errMark_Error
termination_by sizeOf v
decreasing_by all_goals (simp_wf <;> omega)

/-- A well-formed constant literal holding an `Error` node anywhere
renders with the error mark visible. -/
theorem errMark_renderConst (c : Const) (hw : wfConst c = true)
    (he : hasErrConst c = true) : errMark (renderConst c) := by
  match c with
  | .Int i => simp [hasErrConst] at he
  | .Float x => simp [hasErrConst] at he
  | .Str s => simp [hasErrConst] at he
  | .Bool b => simp [hasErrConst] at he
  | .List l =>
    simp only [wfConst] at hw
    simp only [hasErrConst] at he
    simp only [renderConst, String.append_assoc]
    exact errMark_tail _ (errMark_head _ (errMark_renderExprsJoined l hw he))
  | .Set l =>
    simp only [wfConst] at hw
    simp only [hasErrConst] at he
    simp only [renderConst, String.append_assoc]
    exact errMark_tail _ (errMark_head _ (errMark_renderExprsJoined l hw he))
  | .Dict ks vs =>
    simp only [wfConst, Bool.and_eq_true, beq_iff_eq] at hw
    simp only [hasErrConst, Bool.or_eq_true] at he
    simp only [renderConst, String.append_assoc]
    exact errMark_tail _ (errMark_head _
      (errMark_renderMapJoined ks vs hw.1.1 hw.1.2 hw.2 he))
  | .Nil => simp [hasErrConst] at he
termination_by sizeOf c
decreasing_by all_goals (simp_wf <;> omega)

/-- A well-formed statement list holding an `Error` node anywhere renders
with the error mark visible in its joined entries. -/
theorem errMark_renderStatsJoined (l : List Stat) (hw : wfStats l = true)
    (he : hasErrStats l = true) : errMark (renderStatsJoined l) := by
  match l with
  | [] => simp [hasErrStats] at he
  | [s] =>
    simp only [wfStats, Bool.and_eq_true] at hw
    simp only [hasErrStats, Bool.or_eq_true] at he
    simp only [renderStatsJoined]
    rcases he with he | he
    · exact errMark_renderStat s hw.1 he
    · simp [hasErrStats] at he
  | s :: s' :: rest =>
    simp only [wfStats, Bool.and_eq_true] at hw
    simp only [hasErrStats, Bool.or_eq_true] at he
    simp only [renderStatsJoined, String.append_assoc]
    rcases he with he | he
    · exact errMark_head _ (errMark_renderStat s hw.1 he)
    · exact errMark_tail _ (errMark_tail _
        (errMark_renderStatsJoined (s' :: rest)
          (by simp only [wfStats, Bool.and_eq_true]; exact hw.2)
          (by simp only [hasErrStats, Bool.or_eq_true]; exact he)))
termination_by sizeOf l
decreasing_by all_goals (simp_wf <;> omega)

/-- A well-formed expression list holding an `Error` node anywhere renders
with the error mark visible in its joined entries. -/
theorem errMark_renderExprsJoined (l : List Expr) (hw : wfExprs l = true)
    (he : hasErrExprs l = true) : errMark (renderExprsJoined l) := by
  match l with
  | [] => simp [hasErrExprs] at he
  | [e] =>
    simp only [wfExprs, Bool.and_eq_true] at hw
    simp only [hasErrExprs, Bool.or_eq_true] at he
    simp only [renderExprsJoined]
    rcases he with he | he
    · exact errMark_renderExpr e hw.1 he
    · simp [hasErrExprs] at he
  | e :: e' :: rest =>
    simp only [wfExprs, Bool.and_eq_true] at hw
    simp only [hasErrExprs, Bool.or_eq_true] at he
    simp only [renderExprsJoined, String.append_assoc]
    rcases he with he | he
    · exact errMark_head _ (errMark_renderExpr e hw.1 he)
    · exact errMark_tail _ (errMark_tail _
        (errMark_renderExprsJoined (e' :: rest)
          (by simp only [wfExprs, Bool.and_eq_true]; exact hw.2)
          (by simp only [hasErrExprs, Bool.or_eq_true]; exact he)))
termination_by sizeOf l
decreasing_by all_goals (simp_wf <;> omega)

/-- A well-formed capture list holding an `Error` node anywhere renders
with the error mark visible in its joined entries. -/
theorem errMark_renderBindsJoined (l : List (String × Expr))
    (hw : wfBinds l = true) (he : hasErrBinds l = true) :
    errMark (renderBindsJoined l) := by
  match l with
  | [] => simp [hasErrBinds] at he
  | [(s, e)] =>
    simp only [wfBinds, Bool.and_eq_true] at hw
    simp only [hasErrBinds, Bool.or_eq_true] at he
    simp only [renderBindsJoined, String.append_assoc]
    rcases he with he | he
    · exact errMark_tail _ (errMark_tail _ (errMark_tail _ (errMark_head _
        (errMark_renderExpr e hw.1 he))))
    · simp [hasErrBinds] at he
  | (s, e) :: p :: rest =>
    simp only [wfBinds, Bool.and_eq_true] at hw
    simp only [hasErrBinds, Bool.or_eq_true] at he
    simp only [renderBindsJoined, String.append_assoc]
    rcases he with he | he
    · exact errMark_tail _ (errMark_tail _ (errMark_tail _ (errMark_head _
        (errMark_renderExpr e hw.1 he))))
    · exact errMark_tail _ (errMark_tail _ (errMark_tail _ (errMark_tail _
        (errMark_tail _ (errMark_tail _
          (errMark_renderBindsJoined (p :: rest) hw.2 he))))))
termination_by sizeOf l
decreasing_by all_goals (simp_wf <;> omega)

/-- Two equally long, well-formed key and value lists one of which holds
an `Error` node anywhere render with the error mark visible in the joined
map entries. -/
theorem errMark_renderMapJoined (ks vs : List Expr)
    (hlen : ks.length = vs.length) (hwk : wfExprs ks = true)
    (hwv : wfExprs vs = true)
    (he : hasErrExprs ks = true ∨ hasErrExprs vs = true) :
    errMark (renderMapJoined ks vs) := by
  match ks, vs with
  | [], [] => simp [hasErrExprs] at he
  | [], v :: vs' => simp at hlen
  | k :: ks', [] => simp at hlen
  | [k], v :: vs' =>
    match vs' with
    | [] =>
      simp only [wfExprs, Bool.and_eq_true] at hwk hwv
      simp only [hasErrExprs, Bool.or_eq_true] at he
      simp only [renderMapJoined, String.append_assoc]
      rcases he with (he | he) | (he | he)
      · exact errMark_head _ (errMark_renderExpr k hwk.1 he)
      · simp [hasErrExprs] at he
      · exact errMark_tail _ (errMark_tail _ (errMark_renderExpr v hwv.1 he))
      · simp [hasErrExprs] at he
    | _ :: _ => simp at hlen
  | k :: k' :: ks', [v] => simp at hlen
  | k :: k' :: ks', v :: v' :: vs' =>
    simp only [wfExprs, Bool.and_eq_true] at hwk hwv
    simp only [hasErrExprs, Bool.or_eq_true] at he
    simp only [List.length_cons] at hlen
    simp only [renderMapJoined, String.append_assoc]
    rcases he with (he | he) | (he | he)
    · exact errMark_head _ (errMark_renderExpr k hwk.1 he)
    · exact errMark_tail _ (errMark_tail _ (errMark_tail _ (errMark_tail _
        (errMark_renderMapJoined (k' :: ks') (v' :: vs')
          (by simp only [List.length_cons]; omega)
          (by simp only [wfExprs, Bool.and_eq_true]; exact hwk.2)
          (by simp only [wfExprs, Bool.and_eq_true]; exact hwv.2)
          (.inl (by simp only [hasErrExprs, Bool.or_eq_true]; exact he))))))
    · exact errMark_tail _ (errMark_tail _ (errMark_head _
        (errMark_renderExpr v hwv.1 he)))
    · exact errMark_tail _ (errMark_tail _ (errMark_tail _ (errMark_tail _
        (errMark_renderMapJoined (k' :: ks') (v' :: vs')
          (by simp only [List.length_cons]; omega)
          (by simp only [wfExprs, Bool.and_eq_true]; exact hwk.2)
          (by simp only [wfExprs, Bool.and_eq_true]; exact hwv.2)
          (.inr (by simp only [hasErrExprs, Bool.or_eq_true]; exact he))))))
termination_by sizeOf ks + sizeOf vs
decreasing_by all_goals (simp_wf <;> omega)

end

/-- An append whose left part is nonempty is nonempty. -/
theorem str_append_ne_left (a b : String) (h : a ≠ "") : a ++ b ≠ "" := by
  intro hc
  apply h
  have hd := congrArg String.data hc
  rw [String.data_append] at hd
  exact String.ext (List.append_eq_nil.mp hd).1

/-- Every statement variant renders to a nonempty string. -/
theorem renderStat_ne_empty (t : Stat) : renderStat t ≠ "" := by
  match t with
  | .mk l v =>
    simp only [renderStat]
    match v with
    | .Expr e =>
      simp only [renderStat_, String.append_assoc]
      exact str_append_ne_left _ _ (by decide)
    | .Continue => simp only [renderStat_]; decide
    | .Break => simp only [renderStat_]; decide
    | .Return none => simp only [renderStat_]; decide
    | .Return (some e) =>
      simp only [renderStat_, String.append_assoc]
      exact str_append_ne_left _ _ (by decide)
    | .Class n fields methods =>
      simp only [renderStat_, String.append_assoc]
      exact str_append_ne_left _ _ (by decide)
    | .Loop cond body =>
      simp only [renderStat_, String.append_assoc]
      exact str_append_ne_left _ _ (by decide)
    | .For vars iter body =>
      simp only [renderStat_, String.append_assoc]
      exact str_append_ne_left _ _ (by decide)
    | .Error => simp only [renderStat_]; decide

/-- C1: the textual rendering is total — every statement variant, and
every expression variant reached from it (including the `Error`
placeholders), has a defined textual form — so rendering any tree
produces a textual result (a nonempty string for every statement), and on
any tree whose dict literals are balanced, a contained `Error` node
nested anywhere (blocks, call arguments, function bodies, …) is reached
by the traversal: its placeholder text appears in the rendering, so the
renderer traverses to the error without crashing. -/
theorem render_total_and_traverses_errors (t : Stat) :
    renderStat t ≠ "" ∧
      (wfStat t = true → hasErrStat t = true → errMark (renderStat t)) :=
  ⟨renderStat_ne_empty t, fun hw he => errMark_renderStat t hw he⟩

/-- C2: rendering is a deterministic pure function of the payload alone —
it is a function (so rendering the same tree twice yields identical
text), and two statement or expression nodes with equal payloads render
identically whatever their attached locations, since the renderer
dispatches on `val` and never consults `loc`. -/
theorem render_pure_of_payload :
    (∀ s1 s2 : Stat, s1.val = s2.val → renderStat s1 = renderStat s2) ∧
      (∀ e1 e2 : Expr, e1.val = e2.val → renderExpr e1 = renderExpr e2) := by
  constructor
  · intro s1 s2 h
    match s1, s2 with
    | .mk l1 v1, .mk l2 v2 =>
      simp only [Stat.val] at h
      subst h
      simp only [renderStat]
  · intro e1 e2 h
    match e1, e2 with
    | .mk l1 v1, .mk l2 v2 =>
      simp only [Expr.val] at h
      subst h
      simp only [renderExpr]

/-- C3 counterexample: the integer literal `1` and the string literal
`"1"` differ in literal value (and kind), yet render to the same text
`1`, because string constants render unquoted via `Display` — so
rendering is not injective on trees that differ in literal value. -/
theorem render_not_injective_on_literals :
    renderExpr (Expr.mk ⟨0, 0⟩ (.Const (.Int 1)))
        = renderExpr (Expr.mk ⟨0, 0⟩ (.Const (.Str "1"))) ∧
      (Expr.mk ⟨0, 0⟩ (.Const (.Int 1))).val
        ≠ (Expr.mk ⟨0, 0⟩ (.Const (.Str "1"))).val := by
  constructor
  · simp only [renderExpr, renderExpr_, renderConst]
    rfl
  · simp [Expr.val]

/-- C3 amended: rendering is injective on the operator taxonomy — distinct
infix, prefix or postfix operators always render as distinct text, and two
infix nodes equal except for their operator render differently — but it is
not injective on whole trees (see the literal counterexample): trees that
differ only in literal kind can render identically. -/
theorem render_injective_on_operators :
    (∀ a b : OpInfix, a.debug = b.debug → a = b) ∧
      (∀ a b : OpPrefix, a.debug = b.debug → a = b) ∧
      (∀ a b : OpPostfix, a.debug = b.debug → a = b) ∧
      (∀ (loc : Loc) (op op' : OpInfix) (l r : Expr),
        renderExpr (.mk loc (.Infix op l r)) = renderExpr (.mk loc (.Infix op' l r))
          → op = op') := by
  have hinj : ∀ a b : OpInfix, a.debug = b.debug → a = b := by decide
  refine ⟨hinj, by decide, by decide, ?_⟩
  intro loc op op' l r h
  simp only [renderExpr, renderExpr_] at h
  have hd := congrArg String.data h
  simp only [String.data_append, List.append_assoc] at hd
  have h1 := List.append_cancel_left hd
  have h2 := List.append_cancel_left h1
  have h3 := List.append_cancel_left h2
  have h4 := List.append_cancel_right h3
  exact hinj op op' (String.ext h4)

/-- C4 counterexample: the infix enumeration does not have the claimed
member count.  The claim lists assignment, range, or, and, equality, four
ordering, five arithmetic, comma and member-access "and nothing else" —
16 members (17 were "equality" read as the two operators `Eq` and `Ne`) —
but `OpInfix` has 19 members. -/
theorem opInfix_card_not_as_claimed :
    Fintype.card OpInfix = 19 ∧
      Fintype.card OpInfix ≠ 16 ∧ Fintype.card OpInfix ≠ 17 := by
  refine ⟨by decide, by decide, by decide⟩

/-- C4 amended: the operator taxonomy consists of exactly three closed,
flat enumerations; prefix has exactly logical negation and numeric
negation, postfix has exactly index and call, and infix has exactly the
19 members assignment, range, logical or, logical and, two equality
operators (equal, not-equal), four ordering operators, seven arithmetic
operators (plus, minus, times, divide, floor-divide, modulo, exponent),
comma and member-access. -/
theorem operator_taxonomy_exact :
    (∀ o : OpInfix,
      o = .Assign ∨ o = .Range ∨ o = .Or ∨ o = .And ∨ o = .Eq ∨ o = .Ne ∨
        o = .Le ∨ o = .Lt ∨ o = .Ge ∨ o = .Gt ∨ o = .Plus ∨ o = .Minus ∨
        o = .Mul ∨ o = .Div ∨ o = .DivFloor ∨ o = .Mod ∨ o = .Exp ∨
        o = .Comma ∨ o = .Member) ∧
      Fintype.card OpInfix = 19 ∧
      (∀ p : OpPrefix, p = .Not ∨ p = .Neg) ∧ Fintype.card OpPrefix = 2 ∧
      (∀ q : OpPostfix, q = .Index ∨ q = .Call) ∧ Fintype.card OpPostfix = 2 := by
  refine ⟨?_, ?_, ?_, ?_, ?_, ?_⟩ <;> decide

/-- The fused map rendering agrees with `debug_map` over
`keys.iter().zip(vals.iter())`: one entry per element of the zip, in
order. -/
theorem renderMapJoined_eq_zip (ks vs : List Expr) :
    renderMapJoined ks vs =
      joinComma ((ks.zip vs).map fun p => renderExpr p.1 ++ ": " ++ renderExpr p.2) := by
  match ks, vs with
  | [], vs => simp [renderMapJoined, joinComma]
  | k :: ks', [] => simp [renderMapJoined, joinComma]
  | [k], v :: vs' => simp [renderMapJoined, joinComma]
  | k :: k' :: ks', [v] => simp [renderMapJoined, joinComma]
  | k :: k' :: ks', v :: v' :: vs' =>
    simp only [renderMapJoined, List.zip_cons_cons, List.map_cons, joinComma]
    rw [renderMapJoined_eq_zip (k' :: ks') (v' :: vs')]
    simp [List.zip_cons_cons, List.zip]
termination_by sizeOf ks + sizeOf vs
decreasing_by all_goals (simp_wf <;> omega)

/-- `zip` ignores a surplus appended to its second list when the first is
at most as long. -/
theorem zip_drops_right {α : Type} (ks vs extra : List α)
    (h : ks.length ≤ vs.length) : ks.zip (vs ++ extra) = ks.zip vs := by
  induction ks generalizing vs with
  | nil => simp
  | cons k ks' ih =>
    match vs with
    | [] => simp at h
    | v :: vs' =>
      simp only [List.cons_append, List.zip_cons_cons, List.length_cons] at *
      rw [ih vs' (by omega)]

/-- `zip` ignores a surplus appended to its first list when the second is
at most as long. -/
theorem zip_drops_left {α : Type} (ks vs extra : List α)
    (h : vs.length ≤ ks.length) : (ks ++ extra).zip vs = ks.zip vs := by
  induction ks generalizing vs with
  | nil =>
    match vs with
    | [] => simp
    | v :: vs' => simp at h
  | cons k ks' ih =>
    match vs with
    | [] => simp
    | v :: vs' =>
      simp only [List.cons_append, List.zip_cons_cons, List.length_cons] at *
      rw [ih vs' (by omega)]

/-- Modelled from the spec: the parser (the producer, not part of the
staged sources) assembles a dict literal from the written key/value pairs
in source order, filling the two parallel sequences of `Const::Dict`. -/
def mkDict (ps : List (Expr × Expr)) : Const :=
  .Dict (ps.map Prod.fst) (ps.map Prod.snd)

/-- The key sequence of a dict literal (empty for other constants); used
to state the parallel-sequences invariant. -/
def dictKeys : Const → List Expr
  | .Dict ks _ => ks
  | _ => []

/-- The value sequence of a dict literal (empty for other constants). -/
def dictVals : Const → List Expr
  | .Dict _ vs => vs
  | _ => []

/-- C5: a dict literal assembled from written key/value pairs carries two
parallel sequences of equal length; the key sequence is exactly the
written keys — duplicates and order preserved, no deduplication or
reordering — and rendering lists exactly the written pairs in written
order, duplicates included. -/
theorem dict_parallel_sequences (ps : List (Expr × Expr)) :
    (dictKeys (mkDict ps)).length = (dictVals (mkDict ps)).length ∧
      dictKeys (mkDict ps) = ps.map Prod.fst ∧
      dictVals (mkDict ps) = ps.map Prod.snd ∧
      renderConst (mkDict ps) =
        "\x7b" ++ joinComma (ps.map fun p => renderExpr p.1 ++ ": " ++ renderExpr p.2)
          ++ "\x7d" := by
  refine ⟨by simp [mkDict, dictKeys, dictVals], rfl, rfl, ?_⟩
  simp only [mkDict, renderConst, renderMapJoined_eq_zip, List.zip_map',
    Prod.mk.eta, List.map_id, List.map_id']

/-- Modelled from the spec: the parser flattens an
`if..then..elsif..then..else..end` chain into the single ordered
expression sequence of `Expr_::If` — condition, body, condition, body, …,
optionally ending with the unconditional else body. -/
def ifChain (pairs : List (Expr × Expr)) (els : Option Expr) : List Expr :=
  match pairs with
  | [] => els.toList
  | p :: rest => p.1 :: p.2 :: ifChain rest els

/-- The flattened chain's length: two entries per condition/body pair plus
one for a trailing else body. -/
theorem ifChain_length (pairs : List (Expr × Expr)) (els : Option Expr) :
    (ifChain pairs els).length = 2 * pairs.length + els.toList.length := by
  induction pairs with
  | nil => simp [ifChain]
  | cons p rest ih => simp [ifChain, ih]; omega

/-- C6: an if-chain with N condition/body pairs and a trailing
unconditional else body is stored flattened, in order, as a sequence of
exactly 2N+1 expressions — without a trailing else, exactly 2N — and the
renderer shows exactly that sequence (one rendered entry per element). -/
theorem if_chain_flattened_lengths (pairs : List (Expr × Expr)) :
    (∀ e : Expr, (ifChain pairs (some e)).length = 2 * pairs.length + 1) ∧
      (ifChain pairs none).length = 2 * pairs.length ∧
      (∀ (loc : Loc) (els : Option Expr),
        renderExpr (Expr.mk loc (.If (ifChain pairs els))) =
          "(\"if\", " ++ "[" ++ renderExprsJoined (ifChain pairs els) ++ "]" ++ ")") := by
  refine ⟨fun e => ?_, ?_, fun loc els => ?_⟩
  · simp [ifChain_length]
  · simp [ifChain_length]
  · simp only [renderExpr, renderExpr_]

/-- C7: a function-definition expression with no name renders as an
anonymous form that differs from the rendering of every named
function definition, whatever the parameter lists, bodies and capture
lists: after the `def(` label the anonymous form shows the parameter
list (`[`) where the named form shows the quoted name (`"`). -/
theorem anonymous_def_distinguishable (l1 l2 : Loc) (n : String)
    (d1 d2 : List String) (b1 b2 : List Stat)
    (c1 c2 : List (String × Expr)) :
    renderExpr (Expr.mk l1 (.Def none d1 b1 c1))
      ≠ renderExpr (Expr.mk l2 (.Def (some n) d2 b2 c2)) := by
  intro h
  simp only [renderExpr, renderExpr_, debugStrList, debugStr] at h
  have hd := congrArg String.data h
  simp only [String.data_append, List.append_assoc] at hd
  simp only [List.cons_append, List.nil_append] at hd
  simp at hd

/-- C8: for both statements and expressions a constructor takes a payload
and a location and returns the node holding exactly that payload and that
location, for every payload (no validation, the `Error` payloads
included): `Stat::new` and the `Expr { loc, val }` struct constructor. -/
theorem node_constructors_store_payload_and_location
    (v : Stat_) (w : Expr_) (l : Loc) :
    (Stat.new v l).val = v ∧ (Stat.new v l).loc = l ∧
      (Expr.mk l w).val = w ∧ (Expr.mk l w).loc = l :=
  ⟨rfl, rfl, rfl, rfl⟩

/-- `a` is an initial segment of `b`. -/
def strPrefix (a b : String) : Prop :=
  a.data <+: b.data

/-- C9: an index expression renders under the tag `Call` — the very text
used for call expressions — and not under a tag `Index`; index and call
nodes are told apart only by their rendered operands. -/
theorem index_renders_with_call_label (loc : Loc) (e i : Expr) :
    renderExpr (Expr.mk loc (.Index e i))
        = "Call(" ++ renderExpr e ++ ", " ++ renderExpr i ++ ")" ∧
      strPrefix "Call(" (renderExpr (Expr.mk loc (.Index e i))) ∧
      ¬ strPrefix "Index" (renderExpr (Expr.mk loc (.Index e i))) ∧
      ∀ (f : Expr) (args : List Expr),
        strPrefix "Call(" (renderExpr (Expr.mk loc (.Call f args))) := by
  refine ⟨by simp only [renderExpr, renderExpr_], ?_, ?_, fun f args => ?_⟩
  · show ("Call(" : String).data <+: _
    simp only [renderExpr, renderExpr_, String.data_append, List.append_assoc]
    exact List.prefix_append _ _
  · rintro ⟨t, ht⟩
    simp only [renderExpr, renderExpr_, String.data_append, List.append_assoc] at ht
    simp at ht
  · show ("Call(" : String).data <+: _
    simp only [renderExpr, renderExpr_, String.data_append, List.append_assoc]
    exact List.prefix_append _ _

/-- C10: rendering a dict literal pairs keys with values positionally by
zipping the two sequences — one rendered entry per zip element, in order
— so when the sequences have unequal lengths the surplus entries of the
longer sequence are silently omitted (appending extra values or extra
keys to a balanced dict leaves the rendering unchanged) and a result is
still produced. -/
theorem dict_rendering_zips_and_drops_surplus (ks vs : List Expr) :
    renderConst (.Dict ks vs)
        = "\x7b" ++ joinComma ((ks.zip vs).map
            fun p => renderExpr p.1 ++ ": " ++ renderExpr p.2) ++ "\x7d" ∧
      (∀ extra : List Expr, ks.length = vs.length →
        renderConst (.Dict ks (vs ++ extra)) = renderConst (.Dict ks vs) ∧
        renderConst (.Dict (ks ++ extra) vs) = renderConst (.Dict ks vs)) := by
  refine ⟨by simp only [renderConst, renderMapJoined_eq_zip], fun extra h => ⟨?_, ?_⟩⟩
  · simp only [renderConst, renderMapJoined_eq_zip,
      zip_drops_right ks vs extra (le_of_eq h)]
  · simp only [renderConst, renderMapJoined_eq_zip,
      zip_drops_left ks vs extra (le_of_eq h.symm)]

/-- A concrete statement holding an `Error` expression nested inside a
call argument inside a block: the spec's error-resilience scenario. -/
def nestedErrorStat : Stat :=
  Stat.mk ⟨0, 20⟩ (.Expr (Expr.mk ⟨0, 20⟩ (.Block
    [Stat.mk ⟨1, 19⟩ (.Expr (Expr.mk ⟨1, 19⟩ (.Call
      (Expr.mk ⟨1, 2⟩ (.Id "f"))
      [Expr.mk ⟨3, 18⟩ .Error])))])))

/-- Concrete evaluation: the nested-error tree is balanced, holds an
error, and renders in full, the placeholder text included. -/
theorem nestedErrorStat_renders :
    wfStat nestedErrorStat = true ∧ hasErrStat nestedErrorStat = true ∧
      renderStat nestedErrorStat = "([(Call(\"f\", [Error]),)],)" := by
  refine ⟨?_, ?_, ?_⟩
  · simp [nestedErrorStat, wfStat, wfStat_, wfExpr, wfExpr_, wfStats, wfExprs]
  · simp [nestedErrorStat, hasErrStat, hasErrStat_, hasErrExpr, hasErrExpr_,
      hasErrStats, hasErrExprs]
  · simp only [nestedErrorStat, renderStat, renderStat_, renderExpr, renderExpr_,
      renderStatsJoined, renderExprsJoined, debugStr, escapeDebugChar]
    rfl

/-- The tree the spec's concrete scenario ascribes to `x = 1 + 2 * 3`:
multiplication nested under addition nested under assignment. -/
def assignScenario : Expr :=
  Expr.mk ⟨0, 9⟩ (.Infix .Assign
    (Expr.mk ⟨0, 1⟩ (.Id "x"))
    (Expr.mk ⟨4, 9⟩ (.Infix .Plus
      (Expr.mk ⟨4, 5⟩ (.Const (.Int 1)))
      (Expr.mk ⟨8, 9⟩ (.Infix .Mul
        (Expr.mk ⟨8, 8⟩ (.Const (.Int 2)))
        (Expr.mk ⟨9, 9⟩ (.Const (.Int 3))))))))

/-- Concrete evaluation of the scenario's rendering, and one pair of
equal-payload, different-location nodes rendering identically. -/
theorem assignScenario_renders :
    renderExpr assignScenario = "(\"x\", Assign, (1, Plus, (2, Mul, 3)))" ∧
      renderStat (Stat.mk ⟨1, 2⟩ .Break) = renderStat (Stat.mk ⟨7, 9⟩ .Break) := by
  constructor
  · simp only [assignScenario, renderExpr, renderExpr_, renderConst,
      OpInfix.debug, debugStr, escapeDebugChar]
    rfl
  · simp only [renderStat]
